import Mathlib

/-!
Shallow embedding of the ast_compress repository (JS sources:
compressor / ast / tree_top in one bundle, depth_cache, encoder, index)
and verification of the specification claims against it.

Conventions used throughout:

* JS 32-bit bitwise semantics (`x & m`, `x >> k`, `x >>> 0`) are embedded
  through explicit `toInt32` / `toUint32` conversions on `Int`.
* JS `assert(...)` throws; fallible operations are embedded in
  `Except String`.
* JS object reference identity (`===` on nodes) is embedded as equality of
  the node attribute `num` (`attrs.number`): the compressor assigns every
  node of the processed document a distinct pre-order number via
  `depthFirstNumber`, and the identity assert of `ComputeTemplate` prints
  exactly that number.  Node *types* are singletons in the global registry,
  so `type === type` is embedded as equality of type names.
* Loops whose termination is not structural are given explicit fuel; the
  fuel chosen at each call site is proved (or, for concrete evaluations,
  checked) to be large enough, so the embedded function agrees with the
  JS loop on every input the repository can produce.
-/

/- ===================================================================
   Part 1: JS values and primitive helpers
   =================================================================== -/

/- JS field values occurring in the lifted AST: null, booleans, integers,
strings, arrays and plain objects.  Non-integer numbers (floats) are not
modelled; no claim under verification touches the float path.  A JS plain
object is embedded as its property list in name-sorted canonical order
(JS objects are keyed collections; the source compares them only after
sorting their property names, so the canonical order loses nothing). -/
mutual
inductive Value where
  | vnull : Value
  | vbool (b : Bool) : Value
  | vint (i : Int) : Value
  | vstr (s : String) : Value
  | varr (a : ValueList) : Value
  | vobj (o : PropList) : Value
inductive ValueList where
  | nil : ValueList
  | cons (v : Value) (tl : ValueList) : ValueList
inductive PropList where
  | nil : PropList
  | cons (name : String) (v : Value) (tl : PropList) : PropList
end

/- sameValue from tree_top: primitive strict equality, recursive
structural comparison for arrays (length and element-wise) and plain
objects (sorted own-property names, then per-name recursion).  Since
`vobj` property lists are canonically sorted, the sort in
`sameObjectValue` is the identity and object comparison is pointwise. -/
mutual
def sameValue : Value → Value → Bool
  | .vnull, .vnull => true
  | .vbool a, .vbool b => a == b
  | .vint a, .vint b => a == b
  | .vstr a, .vstr b => a == b
  | .varr a, .varr b => sameValueList a b
  | .vobj a, .vobj b => sameProps a b
  | _, _ => false
termination_by structural a _ => a
def sameValueList : ValueList → ValueList → Bool
  | .nil, .nil => true
  | .cons a ta, .cons b tb => sameValue a b && sameValueList ta tb
  | _, _ => false
termination_by structural a _ => a
def sameProps : PropList → PropList → Bool
  | .nil, .nil => true
  | .cons na a ta, .cons nb b tb => na == nb && sameValue a b && sameProps ta tb
  | _, _ => false
termination_by structural a _ => a
end

/-- Character-list comparison by code point; on the BMP identifiers used in
the schema this agrees with the UTF-16 code-unit comparison of the JS
default string sort. -/
def charListLe : List Char → List Char → Bool
  | [], _ => true
  | _ :: _, [] => false
  | a :: as, b :: bs =>
    if a.val < b.val then true
    else if b.val < a.val then false
    else charListLe as bs

def strLe (a b : String) : Bool := charListLe a.data b.data

/-- The JS `Array.prototype.sort()` default (lexicographic) sort applied to
the key arrays extracted from field and child maps.  Insertion sort with a
non-strict relation is stable, matching the engine sort. -/
def sortStrings (l : List String) : List String :=
  List.insertionSort (fun a b => strLe a b = true) l

/-- Key extraction of a JS `Map`: keys in insertion order, first
occurrence only (a `Map` never holds a key twice). -/
def dedupKeys : List String → List String
  | [] => []
  | k :: tl => if k ∈ dedupKeys tl then dedupKeys tl else k :: dedupKeys tl

/-- lookup in an association list, first occurrence (JS `Map.get`). -/
def lookupStr {α : Type} : List (String × α) → String → Option α
  | [], _ => none
  | (k, v) :: tl, name => if k == name then some v else lookupStr tl name

/- ===================================================================
   Part 2: the byte encoder primitives (encoder.js)
   =================================================================== -/

/-- JS ToUint32 (`x >>> 0`). -/
def toUint32 (v : Int) : Nat := (v % 4294967296).toNat

/-- JS ToInt32 (the conversion applied by `&`, `>>` and `|`). -/
def toInt32 (v : Int) : Int :=
  let m := v % 4294967296
  if m < 2147483648 then m else m - 4294967296

/-- writeU8 from encoder.js: pushes `(v >>> 0) & 0xFF`. -/
def jsByte (v : Int) : Nat := toUint32 v % 256

/-- The loop of writeVarUint (encoder.js line 171), one iteration per
constructor: while `v > 0x7F` emit `(v & 0x7F) | 0x80` and update
`v >>= 7`; afterwards emit `v`.  The JS `&` and `>>` operate on ToInt32 of
the current value.  The fuel only bounds the iteration count; 8 is more
than any 32-bit input can use, so the embedding agrees with the JS loop on
every input accepted by the assert. -/
def writeVarUintLoop : Nat → Int → List Nat
  | 0, v => [jsByte v]
  | fuel + 1, v =>
    if 127 < v then
      jsByte ((toInt32 v % 128) + 128) :: writeVarUintLoop fuel (toInt32 v / 128)
    else
      [jsByte v]

/-- writeVarUint from encoder.js: asserts `v <= 0xFFFFFFFF`, then runs the
emission loop. -/
def writeVarUint (v : Nat) : Except String (List Nat) :=
  if v ≤ 4294967295 then .ok (writeVarUintLoop 8 (v : Int)) else .error "assert failed: writeVarUint overflow"

/-- Unsigned LEB128 decoder (the spec inverse): little-endian septets,
continuation bit on all but the last byte, consuming the whole list. -/
def lebDecode : List Nat → Option Nat
  | [] => none
  | b :: rest =>
    if b < 128 then
      match rest with
      | [] => some b
      | _ => none
    else
      match lebDecode rest with
      | some n => some ((b - 128) + 128 * n)
      | none => none

/-- Reference LEB128 emission loop on natural numbers (no 32-bit wrap). -/
def natEncode : Nat → Nat → List Nat
  | 0, v => [v % 256]
  | fuel + 1, v =>
    if 127 < v then (v % 128 + 128) :: natEncode fuel (v / 128) else [v % 256]


/- ===================================================================
   Part 3: string table and value encoding (encoder.js)
   =================================================================== -/

/-- bump of `use_counts` (a JS Map in insertion order): increment in place
or append a fresh entry with count 1. -/
def bumpCount : List (String × Nat) → String → List (String × Nat)
  | [], s => [(s, 1)]
  | (k, c) :: tl, s => if k == s then (k, c + 1) :: tl else (k, c) :: bumpCount tl s

/-- StringTable from encoder.js: use counts (collection phase) and the
frequency-sorted string vector (after finish). -/
structure StringTable where
  use_counts : List (String × Nat)
  sorted_arr : List String

def StringTable.empty : StringTable := ⟨[], []⟩

def StringTable.addString (st : StringTable) (s : String) : StringTable :=
  { st with use_counts := bumpCount st.use_counts s }

/-- finish: sort the collected strings by descending use count.  The JS
engine sort is stable, so ties keep insertion order; the non-strict
insertion sort below is stable as well. -/
def StringTable.finish (st : StringTable) : StringTable :=
  { st with sorted_arr :=
      (List.insertionSort (fun a b : String × Nat => b.2 ≤ a.2) st.use_counts).map Prod.fst }

def indexOfStr : List String → String → Option Nat
  | [], _ => none
  | k :: tl, s =>
    if k == s then some 0
    else
      match indexOfStr tl s with
      | some i => some (i + 1)
      | none => none

/-- lookup: the rank of a finished string (`idx_map` is the index map of
`sorted_arr`); asserts that the string was collected. -/
def StringTable.lookup (st : StringTable) (s : String) : Except String Nat :=
  match indexOfStr st.sorted_arr s with
  | some i => .ok i
  | none => .error "assert failed: FAILED looking up string"

def INT_TAG : Nat := 16
def STR_TAG : Nat := 20
def NANO_ARR_TAG : Nat := 32
def NANO_ARR_MAX_LENGTH : Nat := 7
def ARR_TAG : Nat := 40

/-- writeTaggedNum from encoder.js (lines 304-328).  Note the faithful
bug: the `tag` argument is accepted but *ignored* — every emitted header
byte uses `INT_TAG`, exactly as in the source.  `INT_TAG + k` is
`INT_TAG | k` for `k < 16`.  The byte extractions embed the JS int32
arithmetic shifts. -/
def writeTaggedNum (tag : Nat) (num : Int) : Except String (List Nat) :=
  if num < -2147483648 then .error "assert failed: writeTaggedNum lower bound"
  else if 2147483647 < num then .error "assert failed: writeTaggedNum upper bound"
  else
    let uv := toUint32 num
    if uv ≤ 255 then
      .ok [INT_TAG + 0, jsByte num]
    else if uv ≤ 65535 then
      .ok [INT_TAG + 1, jsByte num, jsByte (toInt32 num / 256)]
    else if uv ≤ 16777215 then
      .ok [INT_TAG + 2, jsByte num, jsByte (toInt32 num / 256), jsByte (toInt32 num / 65536)]
    else if uv < 4294967295 then
      .ok [INT_TAG + 3, jsByte num, jsByte (toInt32 num / 256), jsByte (toInt32 num / 65536),
           jsByte (toInt32 num / 16777216)]
    else .error "assert failed: writeTaggedNum uv bound"

def isNanoInt (i : Int) : Bool := -1 ≤ i && i ≤ 10

/-- nanoIntCode: `(i - NANO_INT_MIN) + NANO_INT_MIN_CODE = i + 5`. -/
def nanoIntCode (i : Int) : Nat := (i + 5).toNat

def vlistLength : ValueList → Nat
  | .nil => 0
  | .cons _ tl => vlistLength tl + 1

/- writeValue from encoder.js (lines 234-261), dispatching on the dynamic
type of the value; the float branch is unreachable in this embedding
(Value has no non-integer number).  Array headers: nano header for
length < 7, tagged header otherwise, then the elements in order.  Any
other object is the fatal `Unhandled value` assert. -/
mutual
def writeValue (st : StringTable) : Value → Except String (List Nat)
  | .vnull => .ok [0]
  | .vbool false => .ok [1]
  | .vbool true => .ok [2]
  | .vint i =>
    if isNanoInt i then .ok [nanoIntCode i]
    else writeTaggedNum INT_TAG i
  | .vstr s => do
    let id ← st.lookup s
    writeTaggedNum STR_TAG (id : Int)
  | .varr a => do
    let len := vlistLength a
    let header ←
      if len < NANO_ARR_MAX_LENGTH then pure [NANO_ARR_TAG + len]
      else writeTaggedNum ARR_TAG (len : Int)
    let body ← writeValueList st a
    pure (header ++ body)
  | .vobj _ => .error "assert failed: Unhandled value"
termination_by structural v => v
def writeValueList (st : StringTable) : ValueList → Except String (List Nat)
  | .nil => .ok []
  | .cons v tl => do
    let b ← writeValue st v
    let rest ← writeValueList st tl
    pure (b ++ rest)
termination_by structural l => l
end

/- ===================================================================
   Part 4: the lifted node model (ast) and the template engine (tree_top)
   =================================================================== -/

/- A lifted node: its walk-assigned pre-order number (`attrs.number`,
standing in for object identity), its registered type name (node types
are singletons, so name equality is type identity), its field map and its
child map.  Maps are embedded as association lists in insertion (schema)
order; key extraction goes through `dedupKeys` because a JS Map never
repeats a key. -/
mutual
inductive Node where
  | mk (num : Nat) (typeName : String) (fields : List (String × Value)) (children : ChildMap)
inductive ChildMap where
  | nil : ChildMap
  | cons (name : String) (c : Child) (tl : ChildMap) : ChildMap
inductive Child where
  | node (n : Node) : Child
  | nullc : Child
  | arr (ns : NodeArr) : Child
inductive NodeArr where
  | nil : NodeArr
  | cons (n : Node) (tl : NodeArr) : NodeArr
end

def Node.num : Node → Nat
  | .mk n _ _ _ => n
def Node.typeName : Node → String
  | .mk _ t _ _ => t
def Node.fields : Node → List (String × Value)
  | .mk _ _ f _ => f
def Node.children : Node → ChildMap
  | .mk _ _ _ c => c

def cmNames : ChildMap → List String
  | .nil => []
  | .cons name _ tl => name :: cmNames tl

def cmLookup : ChildMap → String → Option Child
  | .nil, _ => none
  | .cons k c tl, name => if k == name then some c else cmLookup tl name

def naLength : NodeArr → Nat
  | .nil => 0
  | .cons _ tl => naLength tl + 1

def zipArr : NodeArr → NodeArr → List (Node × Node)
  | .cons a ta, .cons b tb => (a, b) :: zipArr ta tb
  | _, _ => []

/- Total size (node count) of a subtree; used as fuel for the
breadth-first template loop. -/
mutual
def nsize : Node → Nat
  | .mk _ _ _ c => 1 + cmsize c
termination_by structural n => n
def cmsize : ChildMap → Nat
  | .nil => 0
  | .cons _ c tl => csize c + cmsize tl
termination_by structural m => m
def csize : Child → Nat
  | .node n => nsize n
  | .nullc => 0
  | .arr ns => nasize ns
termination_by structural c => c
def nasize : NodeArr → Nat
  | .nil => 0
  | .cons n tl => nsize n + nasize tl
termination_by structural a => a
end

/-- Field maps equal as keyed collections: same names in the same order
with sameValue-equal values. -/
def fieldsEq : List (String × Value) → List (String × Value) → Bool
  | [], [] => true
  | (n1, v1) :: t1, (n2, v2) :: t2 => n1 == n2 && sameValue v1 v2 && fieldsEq t1 t2
  | _, _ => false

/- Structural identity of two (distinct) lifted subtrees: equal type
names, field maps and child maps, ignoring the node numbers (object
identities). -/
mutual
def structEq : Node → Node → Bool
  | .mk _ t1 f1 c1, .mk _ t2 f2 c2 => t1 == t2 && fieldsEq f1 f2 && childMapEq c1 c2
termination_by structural a _ => a
def childMapEq : ChildMap → ChildMap → Bool
  | .nil, .nil => true
  | .cons n1 c1 t1, .cons n2 c2 t2 => n1 == n2 && childEq c1 c2 && childMapEq t1 t2
  | _, _ => false
termination_by structural a _ => a
def childEq : Child → Child → Bool
  | .node a, .node b => structEq a b
  | .nullc, .nullc => true
  | .arr a, .arr b => arrEq a b
  | _, _ => false
termination_by structural a _ => a
def arrEq : NodeArr → NodeArr → Bool
  | .nil, .nil => true
  | .cons a ta, .cons b tb => structEq a b && arrEq ta tb
  | _, _ => false
termination_by structural a _ => a
end

/-- Modelled from the spec: `arraysEqualSimple` is imported from util.js,
which is absent from the available sources (only its import and call
sites exist).  Section 4.4 of the spec compares the *sorted field-name
sets* (and child-name sets) for equality, so the function is element-wise
equality of two string arrays. -/
def arraysEqualSimple (a b : List String) : Bool := a == b

/-- Substitution payload of a cut (tagged union).  `node` carries an
`Option` because the `null_query_child` cut stores the JS `null` child in
its `node` slot. -/
inductive Subst where
  | value (v : Value)
  | value_map (m : List (String × Value))
  | node (n : Option Node)
  | node_array (ns : NodeArr)

/-- A cut record as pushed by `cut_` (a plain `{num, reason, descr,
subst}` object in the source; the `descr` diagnostic string is only ever
logged, and the `Cut` class in tree_top is dead code, so `descr` is
omitted here). -/
structure Cut where
  num : Nat
  reason : String
  subst : Subst

/-- Template from tree_top: origin tree, accounting, `benefit =
step_count - 1` (set by the constructor). -/
structure Template where
  tree : Node
  step_count : Nat
  cut_count : Nat
  benefit : Int
  cuts : List Cut

/-- Mutable state of a `ComputeTemplate` run: the origin root, the
monotone position counter `number`, the accumulators and the
breadth-first FIFO queue. -/
structure CTState where
  root : Node
  number : Nat
  step_count : Nat
  cut_count : Nat
  cuts : List Cut
  queue : List (Node × Node)

/-- `step_(reason, descr)` without a cut: consume one position, count a
step (reason and descr are only logged). -/
def stepState (st : CTState) : CTState :=
  { st with number := st.number + 1, step_count := st.step_count + 1 }

/-- `cut_(reason, descr, subst)`: record a cut at the current position,
consume the position, count the cut. -/
def cutState (st : CTState) (reason : String) (subst : Subst) : CTState :=
  { st with
    number := st.number + 1,
    cut_count := st.cut_count + 1,
    cuts := st.cuts ++ [⟨st.number, reason, subst⟩] }

/-- `addChild_`: append pairs to the shared FIFO queue. -/
def enqueuePairs (st : CTState) (ps : List (Node × Node)) : CTState :=
  { st with queue := st.queue ++ ps }

/-- Sorted key array of the field map (`Array.from(fieldMap.keys()).sort()`). -/
def sortedFieldKeys (n : Node) : List String :=
  sortStrings (dedupKeys (n.fields.map Prod.fst))

/-- Sorted key array of the child map. -/
def sortedChildKeys (n : Node) : List String :=
  sortStrings (dedupKeys (cmNames n.children))

/-- `fieldMap.get(name)` for a name drawn from the shared sorted key set.
The default covers the (unreachable) absent case: in JS both lookups
would yield `undefined` and `undefined === undefined` compares equal,
which is what two `vnull` defaults do. -/
def getField (n : Node) (name : String) : Value :=
  (lookupStr n.fields name).getD .vnull

/-- `childMap.get(name)`.  An absent key yields JS `undefined`, and every
use site treats `undefined` like `null` (`==` comparison,
`Array.isArray(undefined) = false`), so the default is the null child. -/
def getChild (n : Node) (name : String) : Child :=
  (cmLookup n.children name).getD .nullc

/-- The reason string of a field-value cut: the source builds
`value ${i}:${field_name}`. -/
def valueCutReason (i : Nat) (name : String) : String :=
  "value " ++ toString i ++ ":" ++ name

/-- The per-field loop of `matchNodes_` (tree_top lines 954-967): walk the
sorted field keys with their indices; a differing value records a cut and
the loop *continues* (the `return` in the source is inside the `forEach`
callback, so it only ends the current iteration).  Matching values record
nothing. -/
def fieldPhase (o q : Node) (keys : List String) (st : CTState) : CTState :=
  keys.enum.foldl
    (fun st p =>
      if sameValue (getField o p.2) (getField q p.2) then st
      else cutState st (valueCutReason p.1 p.2) (.value (getField q p.2)))
    st

def isArrChild : Child → Bool
  | .arr _ => true
  | _ => false

/-- One iteration of the child loop of `matchNodes_` (tree_top lines
994-1031): assert equal array-ness, then step/cut and enqueue according
to the shapes.  The catch-all branch is unreachable: the guard already
rejected mixed shapes. -/
def childStep (o q : Node) (st : CTState) (name : String) : Except String CTState :=
  let oc := getChild o name
  let qc := getChild q name
  if isArrChild oc != isArrChild qc then
    .error "assert failed: Array.isArray mismatch"
  else
    match oc, qc with
    | .arr oa, .arr qa =>
      if naLength oa == naLength qa then
        .ok (enqueuePairs (stepState st) (zipArr oa qa))
      else
        .ok (cutState st "child_array_length" (.node_array qa))
    | .nullc, .nullc => .ok (stepState st)
    | .nullc, .node qn => .ok (cutState st "notnull_query_child" (.node (some qn)))
    | .node _, .nullc => .ok (cutState st "null_query_child" (.node none))
    | .node a, .node b => .ok (enqueuePairs (stepState st) [(a, b)])
    | _, _ => .error "unreachable: shape guard"

/-- The child loop over the sorted child keys. -/
def childPhase (o q : Node) (keys : List String) (st : CTState) : Except String CTState :=
  keys.foldlM (childStep o q) st

/-- `matchNodes_` from tree_top (lines 916-1032): type check, `node_type`
step, field-name check, per-field value loop, child-name check,
`tree_top` step, child loop. -/
def matchNodes (o q : Node) (st : CTState) : Except String CTState :=
  if o.typeName != q.typeName then
    .ok (cutState st "node_type" (.node (some q)))
  else
    let st1 := stepState st
    let ofk := sortedFieldKeys o
    let qfk := sortedFieldKeys q
    if !arraysEqualSimple ofk qfk then
      .ok (cutState st1 "field_names" (.value_map q.fields))
    else
      let st2 := fieldPhase o q ofk st1
      let ock := sortedChildKeys o
      let qck := sortedChildKeys q
      if !arraysEqualSimple ock qck then
        .ok (cutState st2 "child_names" (.node (some q)))
      else
        childPhase o q ock (stepState st2)

/-- The Template constructor applied to the final accumulators
(`benefit = step_count - 1`). -/
def mkTemplate (st : CTState) : Template :=
  { tree := st.root, step_count := st.step_count, cut_count := st.cut_count,
    benefit := (st.step_count : Int) - 1, cuts := st.cuts }

/-- The `while (child_queue.length > 0)` loop of `compute()`.  The queue
is checked before the fuel, so an empty queue terminates regardless of
fuel; the fuel passed by `computeTemplate` (the origin size) is shown
sufficient for the runs the claims quantify over. -/
def computeLoop : Nat → CTState → Except String Template
  | fuel, st =>
    match st.queue with
    | [] => .ok (mkTemplate st)
    | (o, q) :: rest =>
      match fuel with
      | 0 => .error "fuel exhausted"
      | fuel + 1 => do
        let st2 ← matchNodes o q { st with queue := rest }
        computeLoop fuel st2

/-- `ComputeTemplate` construction plus `compute()`: the constructor
asserts that origin and query are distinct object references (embedded as
distinct node numbers), then the breadth-first loop runs from the
singleton queue. -/
def computeTemplate (o q : Node) : Except String Template :=
  if o.num == q.num then
    .error "assert failed: NODE ALREADY IN"
  else
    computeLoop (nsize o)
      { root := o, number := 0, step_count := 0, cut_count := 0, cuts := [], queue := [(o, q)] }

def cutNumsAgree : List Cut → List Cut → Bool
  | [], [] => true
  | a :: ta, b :: tb => a.num == b.num && cutNumsAgree ta tb
  | _, _ => false

/-- `Template.matchesTree` from tree_top: recompute against the stored
origin; the template matches iff step count, cut count, cut list length
and every cut position agree, in which case the *fresh* cut list is
returned. -/
def Template.matchesTree (tm : Template) (query : Node) : Except String (Option (List Cut)) := do
  let t ← computeTemplate tm.tree query
  if t.step_count != tm.step_count then pure none
  else if t.cut_count != tm.cut_count then pure none
  else if t.cuts.length != tm.cuts.length then pure none
  else if cutNumsAgree tm.cuts t.cuts then pure (some t.cuts)
  else pure none

/- ===================================================================
   Part 5: direct node encoding (encoder.js writeDirectNode)
   =================================================================== -/

/-- The `node.type.typeCode()` call of writeDirectNode (encoder.js line
193).  The `NodeType` class of the ast source declares *no* `typeCode`
method (and the encoder constant `RAW_IDENT_TYPE_CODE = 2` is never
used), so the property access yields `undefined` and the call throws a
TypeError for every node type. -/
def typeCode (typeName : String) : Except String Nat :=
  .error "TypeError: node.type.typeCode is not a function"

/-- writeDirectNode from encoder.js (lines 191-199): write the type code
varuint, then every field value in declaration order via writeValue.
There is no special case of any kind before the `typeCode` call. -/
def writeDirectNode (st : StringTable) (node : Node) : Except String (List Nat) := do
  let code ← typeCode node.typeName
  let head ← writeVarUint code
  let body ← node.fields.foldlM
    (fun acc p => do
      let b ← writeValue st p.2
      pure (acc ++ b))
    []
  pure (head ++ body)

/- ===================================================================
   Part 6: the depth cache (depth_cache source)
   =================================================================== -/

/-- A match candidate as accumulated by the two sub-searches.  The
display string `ref` (used by `search` only as a truthiness flag and for
logging) is represented by the surrounding `Option`; the redundant
`prior_tree` / `prior_template` / `template` / `step_count` / `cut_count`
slots consumed by the logging driver are omitted. -/
structure SMatch where
  depth_delta : Int
  rev_i : Nat
  benefit : Int
  cuts : List Cut

/-- One per-depth cache entry `{trees: [], templates: []}`. -/
structure DCEntry where
  trees : List Node
  templates : List Template

/-- DepthCache state; the constructor freezes `width = 64` and
`depth_range = 2`. -/
structure DepthCache where
  width : Nat
  depth_range : Nat
  depth_caches : List DCEntry

def DepthCache.init : DepthCache := ⟨64, 2, []⟩

/-- `matches.sort((a, b) => b.benefit - a.benefit)` followed by the
positive-head check of both sub-searches.  The JS engine sort is stable;
insertion sort with the non-strict descending relation is stable too. -/
def bestMatch (ms : List SMatch) : Option SMatch :=
  match List.insertionSort (fun a b : SMatch => b.benefit ≤ a.benefit) ms with
  | [] => none
  | m :: _ => if 0 < m.benefit then some m else none

/-- templateSearchDepth_: skip out-of-range depths, then scan the
template ring newest-first; every prior template whose `matchesTree`
yields a cut array contributes a candidate carrying the *prior
template's* benefit. -/
def templateSearchDepth (dc : DepthCache) (cur_depth : Nat) (tree : Node) (depth_delta : Int)
    (ms : List SMatch) : Except String (List SMatch) :=
  let depth : Int := (cur_depth : Int) + depth_delta
  if depth < 0 then .ok ms
  else if (dc.depth_caches.length : Int) ≤ depth then .ok ms
  else
    let cache := (dc.depth_caches.getD depth.toNat ⟨[], []⟩).templates
    cache.reverse.enum.foldlM
      (fun ms p => do
        let cuts? ← p.2.matchesTree tree
        match cuts? with
        | some cuts =>
          pure (ms ++ [{ depth_delta := depth_delta, rev_i := p.1, benefit := p.2.benefit,
                         cuts := cuts }])
        | none => pure ms)
      ms

/-- The probe order of templateSearch_: delta 0, then -1, +1, ...,
-depth_range, +depth_range. -/
def deltaList (range : Nat) : List Int :=
  (List.range range).foldl (fun acc i => acc ++ [-(i + 1 : Int), (i + 1 : Int)]) [0]

/-- templateSearch_ from depth_cache. -/
def templateSearch (dc : DepthCache) (depth : Nat) (tree : Node) :
    Except String (Option SMatch) := do
  let ms ← (deltaList dc.depth_range).foldlM
    (fun ms d => templateSearchDepth dc depth tree d ms) []
  pure (bestMatch ms)

/-- treeSearchDepth_: scan the subtree ring newest-first; for each prior
tree of the query's type run ComputeTemplate and score
`(step_count - cut_count) - 1`. -/
def treeSearchDepth (dc : DepthCache) (cur_depth : Nat) (tree : Node) (depth_delta : Int)
    (ms : List SMatch) : Except String (List SMatch) :=
  let depth : Int := (cur_depth : Int) + depth_delta
  if depth < 0 then .ok ms
  else if (dc.depth_caches.length : Int) ≤ depth then .ok ms
  else
    let cache := (dc.depth_caches.getD depth.toNat ⟨[], []⟩).trees
    cache.reverse.enum.foldlM
      (fun ms p =>
        if p.2.typeName == tree.typeName then do
          let tm ← computeTemplate p.2 tree
          let benefit := ((tm.step_count : Int) - (tm.cut_count : Int)) - 1
          pure (ms ++ [{ depth_delta := depth_delta, rev_i := p.1, benefit := benefit,
                         cuts := tm.cuts }])
        else pure ms)
      ms

/-- The guarded `-1` probe of treeSearch_ (`if (depth - 1 >= 0)`). -/
def treeSearchMinus (dc : DepthCache) (depth : Nat) (tree : Node) (ms : List SMatch) :
    Except String (List SMatch) :=
  if 1 ≤ depth then treeSearchDepth dc depth tree (-1) ms else pure ms

/-- treeSearch_ from depth_cache: probe 0, then -1 (when the current
depth allows it), then +1. -/
def treeSearch (dc : DepthCache) (depth : Nat) (tree : Node) :
    Except String (Option SMatch) := do
  let ms0 ← treeSearchDepth dc depth tree 0 []
  let ms1 ← treeSearchMinus dc depth tree ms0
  let ms2 ← treeSearchDepth dc depth tree 1 ms1
  pure (bestMatch ms2)

/-- search from depth_cache (lines 30-46): run both sub-searches; with
two hits keep the template result when
`template_result.benefit >= tree_result.benefit`, otherwise the tree
result; with one hit keep it; with none return the empty record. -/
def DepthCache.search (dc : DepthCache) (depth : Nat) (tree : Node) :
    Except String (Option SMatch) := do
  let template_result ← templateSearch dc depth tree
  let tree_result ← treeSearch dc depth tree
  match template_result, tree_result with
  | some a, some b => pure (some (if b.benefit ≤ a.benefit then a else b))
  | some a, none => pure (some a)
  | none, some b => pure (some b)
  | none, none => pure none

/-- The `while (cache.length >= this.width) cache.shift()` loop of
cachePush.  (With `width = 64` the loop always terminates; the structural
recursion differs from the JS loop only at width 0 on an empty list,
which the repository can never reach.) -/
def shiftLoop {α : Type} (width : Nat) : List α → List α
  | [] => []
  | x :: tl => if width ≤ (x :: tl).length then shiftLoop width tl else x :: tl

/-- cachePush from depth_cache (lines 161-166): append at the tail, then
drop heads while the length is still `>= width`. -/
def cachePush {α : Type} (width : Nat) (cache : List α) (item : α) : List α :=
  shiftLoop width (cache ++ [item])

/-- getEntry_: extend the per-depth vector with empty entries while
`length <= depth`. -/
def extendCaches (l : List DCEntry) (depth : Nat) : List DCEntry :=
  l ++ List.replicate (depth + 1 - l.length) ⟨[], []⟩

/-- pushTree from depth_cache. -/
def DepthCache.pushTree (dc : DepthCache) (depth : Nat) (tree : Node) : DepthCache :=
  let l := extendCaches dc.depth_caches depth
  let e := l.getD depth ⟨[], []⟩
  { dc with depth_caches := l.set depth { e with trees := cachePush dc.width e.trees tree } }

/-- pushTemplate from depth_cache. -/
def DepthCache.pushTemplate (dc : DepthCache) (depth : Nat) (tm : Template) : DepthCache :=
  let l := extendCaches dc.depth_caches depth
  let e := l.getD depth ⟨[], []⟩
  { dc with depth_caches := l.set depth { e with templates := cachePush dc.width e.templates tm } }

/-- The tree ring at a given depth (empty when the depth was never
touched). -/
def treesAt (dc : DepthCache) (depth : Nat) : List Node :=
  (dc.depth_caches.getD depth ⟨[], []⟩).trees

/-- The template ring at a given depth. -/
def templatesAt (dc : DepthCache) (depth : Nat) : List Template :=
  (dc.depth_caches.getD depth ⟨[], []⟩).templates

/- ===================================================================
   Part 7: the tree walker (compressor source, prePostWalkHelper)
   =================================================================== -/

inductive When where
  | wbegin
  | wend
  | wemptyArray

/-- The walk attributes handed to every callback (the shared mutable
`_state` is threaded separately as the walker counter). -/
structure WAttrs where
  parent : Option Nat
  name : String
  disp_name : String
  depth : Nat
  number : Nat

/-- What a visitor callback may return: `false` (walk aborts), an
explicit child-list override, or anything else (natural children). -/
inductive CbResult where
  | rFalse
  | rChildren (cs : List (String × Child))
  | rNone

/-- A visitor: receives the event kind, the node (`none` for
empty_array) and the attributes. -/
def Cb := When → Option Node → WAttrs → CbResult

/-- One emitted callback event of a walk. -/
structure TraceEv where
  kind : When
  node : Option Nat
  attrs : WAttrs

def cmToList : ChildMap → List (String × Child)
  | .nil => []
  | .cons name c tl => (name, c) :: cmToList tl

def naToList : NodeArr → List Node
  | .nil => []
  | .cons n tl => n :: naToList tl

/-- Local status of the child loop inside one prePostWalkHelper
activation: still iterating, the early `return;` taken after an
empty-array event, or the abort (`return false`) propagation. -/
inductive WStatus where
  | go
  | earlyRet
  | aborted

/-- prePostWalkHelper (compressor source lines 222-285), instrumented to
return the emitted event trace, the abort flag (whether the helper
returned `false`) and the updated walker counter.  Faithful control
flow: a `false` from `begin` returns `false` immediately; a non-array
result falls back to the natural children; an *empty array* child
emits `empty_array` and then executes the bare `return;` — skipping all
remaining child entries and the node's own `end` event; a `false`
bubbling out of a recursive call sets `brk`, skips the remaining array
elements and returns `false`; otherwise `end` is emitted and its result
checked.  The fuel only bounds the recursion depth (the node depth, or
the override chain length); every concrete run below uses visibly
sufficient fuel. -/
def walkHelper : Nat → Cb → Node → WAttrs → Nat → (List TraceEv × Bool × Nat)
  | 0, _, _, _, c => ([], true, c)
  | fuel + 1, cb, node, attrs, c =>
    let beginEv : TraceEv := ⟨.wbegin, some node.num, attrs⟩
    match cb .wbegin (some node) attrs with
    | .rFalse => ([beginEv], true, c)
    | res =>
      let children :=
        match res with
        | .rChildren cs => cs
        | _ => cmToList node.children
      let folded :=
        children.foldl
          (fun (acc : List TraceEv × Nat × WStatus) p =>
            match acc with
            | (tr, cnt, .go) =>
              let name := p.1
              match p.2 with
              | .arr .nil =>
                let child_attrs : WAttrs :=
                  ⟨some node.num, name, "", attrs.depth + 1, 0⟩
                let ev : TraceEv := ⟨.wemptyArray, none, child_attrs⟩
                match cb .wemptyArray none child_attrs with
                | .rFalse => (tr ++ [ev], cnt, .aborted)
                | _ => (tr ++ [ev], cnt, .earlyRet)
              | ch =>
                let is_array := isArrChild ch
                let chs : List (Option Node) :=
                  match ch with
                  | .node n => [some n]
                  | .nullc => [none]
                  | .arr ns => (naToList ns).map some
                let inner :=
                  chs.enum.foldl
                    (fun (iacc : List TraceEv × Nat × Bool) ip =>
                      match iacc with
                      | (itr, icnt, true) => (itr, icnt, true)
                      | (itr, icnt, false) =>
                        match ip.2 with
                        | none => (itr, icnt, false)
                        | some ch =>
                          let number := icnt + 1
                          let disp_name :=
                            name ++ (if is_array then "." ++ toString ip.1 else "")
                          let child_attrs : WAttrs :=
                            ⟨some node.num, name, disp_name, attrs.depth + 1, number⟩
                          let r := walkHelper fuel cb ch child_attrs number
                          (itr ++ r.1, r.2.2, r.2.1))
                    (tr, cnt, false)
                match inner with
                | (itr, icnt, true) => (itr, icnt, .aborted)
                | (itr, icnt, false) => (itr, icnt, .go)
            | _ => acc)
          ([beginEv], c, .go)
      match folded with
      | (tr, cnt, .go) =>
        let endEv : TraceEv := ⟨.wend, some node.num, attrs⟩
        match cb .wend (some node) attrs with
        | .rFalse => (tr ++ [endEv], true, cnt)
        | _ => (tr ++ [endEv], false, cnt)
      | (tr, cnt, .earlyRet) => (tr, false, cnt)
      | (tr, cnt, .aborted) => (tr, true, cnt)

/-- prePostWalk: root attributes `<root>`, depth 0, counter 0. -/
def prePostWalk (fuel : Nat) (root : Node) (cb : Cb) : List TraceEv × Bool × Nat :=
  walkHelper fuel cb root ⟨none, "<root>", "<root>", 0, 0⟩ 0

/- ===================================================================
   Part 9: spec-side helpers and concrete fixtures for the claims
   =================================================================== -/

/-- The indexed sorted field keys at which the two nodes disagree
(spec-side description of the cut positions of the per-field loop). -/
def mismatchedFields (o q : Node) (keys : List String) : List (Nat × String) :=
  keys.enum.filter (fun p => !(sameValue (getField o p.2) (getField q p.2)))

/-- The cut records the per-field loop pushes for a run of mismatches
starting at position `base`: consecutive numbers, the source reason
string, the query value as substitution. -/
def buildValueCuts (q : Node) : Nat → List (Nat × String) → List Cut
  | _, [] => []
  | base, p :: tl =>
    ⟨base, valueCutReason p.1 p.2, .value (getField q p.2)⟩ :: buildValueCuts q (base + 1) tl

/-- The state after the node-type step and the full field loop of
`matchNodes_` (spec-side form used by the C6 theorem). -/
def c6State (o q : Node) (st : CTState) : CTState :=
  { stepState st with
    number := (stepState st).number + (mismatchedFields o q (sortedFieldKeys o)).length,
    cut_count := (stepState st).cut_count + (mismatchedFields o q (sortedFieldKeys o)).length,
    cuts := (stepState st).cuts
      ++ buildValueCuts q (stepState st).number (mismatchedFields o q (sortedFieldKeys o)) }

/-- Total origin-side size of a pair list (the loop measure). -/
def pairsSize (ps : List (Node × Node)) : Nat := (ps.map (fun p => nsize p.1)).sum

/-- Removal of every entry with a given name (an accounting device for
the key-sum bound; not part of the source). -/
def cmErase : ChildMap → String → ChildMap
  | .nil, _ => .nil
  | .cons k c tl, name => if k == name then cmErase tl name else .cons k c (cmErase tl name)

/- Concrete fixtures (small lifted nodes and caches used by witnesses and
counterexamples). -/

def fxIdent0 : Node := .mk 0 "Identifier" [("name", .vstr "x")] .nil
def fxIdent1 : Node := .mk 1 "Identifier" [("name", .vstr "x")] .nil

def fxTable : StringTable := (StringTable.empty.addString "a").finish

def fxFoo0 : Node := .mk 0 "Identifier" [("name", .vstr "foo")] .nil
def fxFoo1 : Node := .mk 1 "Identifier" [("name", .vstr "foo")] .nil
def fxFoo5 : Node := .mk 5 "Identifier" [("name", .vstr "foo")] .nil

def fxTemplate : Template :=
  { tree := fxFoo1, step_count := 2, cut_count := 0, benefit := 1, cuts := [] }

def fxCache : DepthCache :=
  { width := 64, depth_range := 2, depth_caches := [⟨[fxFoo0], [fxTemplate]⟩] }

def fxMatch : SMatch := { depth_delta := 0, rev_i := 0, benefit := 1, cuts := [] }

def fxNodes64 : List Node := (List.range 64).map (fun i => Node.mk i "Identifier" [] .nil)
def fxTemplates64 : List Template :=
  (List.range 64).map (fun i =>
    { tree := Node.mk i "Identifier" [] .nil, step_count := 2, cut_count := 0,
      benefit := 1, cuts := [] })

def fxWalkRoot : Node :=
  .mk 0 "Program" [("sourceType", .vstr "script")]
    (.cons "body"
      (.arr (.cons (.mk 1 "EmptyStatement" [] .nil)
        (.cons (.mk 2 "EmptyStatement" [] .nil) .nil)))
      .nil)

/-- A visitor pruning (returning `false` at begin of) node 1. -/
def fxPruneCb : Cb := fun w n _ =>
  match w, n with
  | .wbegin, some nd => if nd.num == 1 then .rFalse else .rNone
  | _, _ => .rNone

/-- The natural visitor: always walk the node's own children. -/
def fxNaturalCb : Cb := fun _ _ _ => .rNone

/-- A FunctionDeclaration with an *empty* params array between the id and
body branches (children in schema order: id, params, body). -/
def fxFuncDecl : Node :=
  .mk 0 "FunctionDeclaration"
    [("generator", .vbool false), ("expression", .vbool false), ("async", .vbool false)]
    (.cons "id" (.node (.mk 1 "Identifier" [("name", .vstr "f")] .nil))
      (.cons "params" (.arr .nil)
        (.cons "body" (.node (.mk 2 "ThisExpression" [] .nil)) .nil)))

def fxUpd0 : Node :=
  .mk 0 "UpdateExpression" [("operator", .vstr "++"), ("prefix", .vbool true)]
    (.cons "argument" (.node (.mk 1 "Identifier" [("name", .vstr "i")] .nil)) .nil)
def fxUpd2 : Node :=
  .mk 2 "UpdateExpression" [("operator", .vstr "--"), ("prefix", .vbool false)]
    (.cons "argument" (.node (.mk 3 "Identifier" [("name", .vstr "j")] .nil)) .nil)
def fxStart : CTState := ⟨fxUpd0, 0, 0, 0, [], []⟩


/- ===================================================================
   Theorems.  First: correctness and failure of writeVarUint
   =================================================================== -/

theorem toInt32_of_small (v : Int) (h0 : 0 ≤ v) (h1 : v < 2147483648) :
    toInt32 v = v := by
  unfold toInt32
  have hm : v % 4294967296 = v := Int.emod_eq_of_lt h0 (by omega)
  simp only [hm]
  omega

theorem jsByte_of_small (v : Nat) (h1 : v < 4294967296) :
    jsByte (v : Int) = v % 256 := by
  unfold jsByte toUint32
  have hm : (v : Int) % 4294967296 = (v : Int) :=
    Int.emod_eq_of_lt (by omega) (by omega)
  rw [hm]
  simp

/-- Below 2³¹ the 32-bit bit operations are invisible: the JS loop agrees
with the pure LEB128 loop. -/
theorem writeVarUintLoop_eq_natEncode (fuel : Nat) :
    ∀ v : Nat, v < 2147483648 →
      writeVarUintLoop fuel (v : Int) = natEncode fuel v := by
  induction fuel with
  | zero =>
    intro v h31
    unfold writeVarUintLoop natEncode
    rw [jsByte_of_small v (by omega)]
  | succ fuel ih =>
    intro v h31
    unfold writeVarUintLoop natEncode
    by_cases h : 127 < v
    · rw [if_pos (show (127 : Int) < (v : Int) by exact_mod_cast h), if_pos h]
      rw [toInt32_of_small (v : Int) (by omega) (by exact_mod_cast h31)]
      have hmod : ((v : Int) % 128) = ((v % 128 : Nat) : Int) := by push_cast; rfl
      have hdiv : ((v : Int) / 128) = ((v / 128 : Nat) : Int) := by push_cast; rfl
      rw [hmod, hdiv]
      have hbyte : jsByte (((v % 128 : Nat) : Int) + 128) = v % 128 + 128 := by
        have hcast : (((v % 128 : Nat) : Int) + 128) = (((v % 128 + 128 : Nat)) : Int) := by
          push_cast; ring
        rw [hcast, jsByte_of_small _ (by have := Nat.mod_lt v (show 0 < 128 by omega); omega)]
        exact Nat.mod_eq_of_lt (by have := Nat.mod_lt v (show 0 < 128 by omega); omega)
      rw [hbyte, ih (v / 128) (by omega)]
    · rw [if_neg (show ¬ (127 : Int) < (v : Int) by exact_mod_cast h), if_neg h]
      rw [jsByte_of_small v (by omega)]

/-- The pure loop round-trips through the LEB128 decoder whenever the fuel
covers the value. -/
theorem natEncode_roundtrip (fuel : Nat) :
    ∀ v : Nat, v < 128 ^ (fuel + 1) →
      lebDecode (natEncode fuel v) = some v := by
  induction fuel with
  | zero =>
    intro v hsz
    have hv : v < 128 := by simpa using hsz
    unfold natEncode lebDecode
    rw [Nat.mod_eq_of_lt (by omega)]
    rw [if_pos hv]
  | succ fuel ih =>
    intro v hsz
    unfold natEncode
    by_cases h : 127 < v
    · rw [if_pos h]
      unfold lebDecode
      rw [if_neg (by omega)]
      have hrec : lebDecode (natEncode fuel (v / 128)) = some (v / 128) := by
        apply ih
        have hlt : v < 128 * 128 ^ (fuel + 1) := by
          calc v < 128 ^ (fuel + 1 + 1) := hsz
          _ = 128 * 128 ^ (fuel + 1) := by ring
        exact Nat.div_lt_of_lt_mul hlt
      rw [hrec]
      show some (v % 128 + 128 - 128 + 128 * (v / 128)) = some v
      congr 1
      omega
    · rw [if_neg h]
      unfold lebDecode
      rw [Nat.mod_eq_of_lt (by omega)]
      rw [if_pos (by omega)]

/-- writeVarUint is a correct LEB128 encoder on `[0, 2^31)`. -/
theorem writeVarUint_roundtrip_below_2_31 (v : Nat) (h : v < 2147483648) :
    ∃ bytes, writeVarUint v = .ok bytes ∧ lebDecode bytes = some v := by
  refine ⟨writeVarUintLoop 8 (v : Int), ?_, ?_⟩
  · unfold writeVarUint
    rw [if_pos (by omega)]
  · rw [writeVarUintLoop_eq_natEncode 8 v h]
    exact natEncode_roundtrip 8 v (by omega)

theorem writeVarUint_roundtrip_witness :
    ∃ bytes, writeVarUint 1000000000 = .ok bytes ∧ lebDecode bytes = some 1000000000 :=
  writeVarUint_roundtrip_below_2_31 1000000000 (by omega)

/- ===================================================================
   Part 8: lemmas about the template engine on structurally equal trees
   =================================================================== -/

theorem fieldsEq_names {f1 f2 : List (String × Value)} (h : fieldsEq f1 f2 = true) :
    f1.map Prod.fst = f2.map Prod.fst := by
  induction f1 generalizing f2 with
  | nil => cases f2 with
    | nil => rfl
    | cons p tl => simp [fieldsEq] at h
  | cons p tl ih =>
    cases f2 with
    | nil => simp [fieldsEq] at h
    | cons p2 tl2 =>
      obtain ⟨a, b⟩ := p
      obtain ⟨a2, b2⟩ := p2
      simp only [fieldsEq, Bool.and_eq_true, beq_iff_eq] at h
      simp only [List.map_cons, List.cons.injEq]
      exact ⟨h.1.1, ih h.2⟩

theorem fieldsEq_lookup {f1 f2 : List (String × Value)} (h : fieldsEq f1 f2 = true)
    (name : String) :
    sameValue ((lookupStr f1 name).getD .vnull) ((lookupStr f2 name).getD .vnull) = true := by
  induction f1 generalizing f2 with
  | nil =>
    cases f2 with
    | nil => rfl
    | cons p tl => simp [fieldsEq] at h
  | cons p tl ih =>
    cases f2 with
    | nil => simp [fieldsEq] at h
    | cons p2 tl2 =>
      obtain ⟨a, b⟩ := p
      obtain ⟨a2, b2⟩ := p2
      simp only [fieldsEq, Bool.and_eq_true, beq_iff_eq] at h
      obtain ⟨⟨hname, hval⟩, htl⟩ := h
      subst hname
      unfold lookupStr
      by_cases hk : a == name
      · rw [if_pos hk, if_pos hk]
        simpa using hval
      · rw [if_neg hk, if_neg hk]
        exact ih htl

theorem childMapEq_names : ∀ {c1 c2 : ChildMap}, childMapEq c1 c2 = true →
    cmNames c1 = cmNames c2
  | .nil, .nil, _ => rfl
  | .nil, .cons _ _ _, h => by simp [childMapEq] at h
  | .cons _ _ _, .nil, h => by simp [childMapEq] at h
  | .cons n c tl, .cons n2 c2 tl2, h => by
      simp only [childMapEq, Bool.and_eq_true, beq_iff_eq] at h
      simp only [cmNames, List.cons.injEq]
      exact ⟨h.1.1, childMapEq_names h.2⟩

theorem childMapEq_lookup : ∀ {c1 c2 : ChildMap}, childMapEq c1 c2 = true → ∀ (name : String),
    childEq ((cmLookup c1 name).getD .nullc) ((cmLookup c2 name).getD .nullc) = true
  | .nil, .nil, _, _ => rfl
  | .nil, .cons _ _ _, h, _ => by simp [childMapEq] at h
  | .cons _ _ _, .nil, h, _ => by simp [childMapEq] at h
  | .cons n c tl, .cons n2 c2 tl2, h, name => by
      simp only [childMapEq, Bool.and_eq_true, beq_iff_eq] at h
      obtain ⟨⟨hname, hval⟩, htl⟩ := h
      subst hname
      unfold cmLookup
      by_cases hk : n == name
      · rw [if_pos hk, if_pos hk]
        simpa using hval
      · rw [if_neg hk, if_neg hk]
        exact childMapEq_lookup htl name

theorem arrEq_length : ∀ {a b : NodeArr}, arrEq a b = true → naLength a = naLength b
  | .nil, .nil, _ => rfl
  | .nil, .cons _ _, h => by simp [arrEq] at h
  | .cons _ _, .nil, h => by simp [arrEq] at h
  | .cons n tl, .cons n2 tl2, h => by
      simp only [arrEq, Bool.and_eq_true] at h
      simp only [naLength]
      rw [arrEq_length h.2]

theorem arrEq_zip : ∀ {a b : NodeArr}, arrEq a b = true →
    ∀ p ∈ zipArr a b, structEq p.1 p.2 = true
  | .nil, .nil, _ => by simp [zipArr]
  | .nil, .cons _ _, h => by simp [arrEq] at h
  | .cons _ _, .nil, h => by simp [arrEq] at h
  | .cons n tl, .cons n2 tl2, h => by
      simp only [arrEq, Bool.and_eq_true] at h
      intro p hp
      simp only [zipArr, List.mem_cons] at hp
      cases hp with
      | inl he => subst he; exact h.1
      | inr he => exact arrEq_zip h.2 p he

theorem pairsSize_append (a b : List (Node × Node)) :
    pairsSize (a ++ b) = pairsSize a + pairsSize b := by
  unfold pairsSize
  rw [List.map_append, List.sum_append]

theorem arrEq_zip_size : ∀ {a b : NodeArr}, arrEq a b = true →
    pairsSize (zipArr a b) = nasize a
  | .nil, .nil, _ => by simp [zipArr, pairsSize, nasize]
  | .nil, .cons _ _, h => by simp [arrEq] at h
  | .cons _ _, .nil, h => by simp [arrEq] at h
  | .cons n tl, .cons n2 tl2, h => by
      simp only [arrEq, Bool.and_eq_true] at h
      simp only [zipArr, pairsSize, List.map_cons, List.sum_cons, nasize]
      have := arrEq_zip_size h.2
      unfold pairsSize at this
      omega

theorem cmLookup_cmErase : ∀ (c : ChildMap) (k n : String), n ≠ k →
    cmLookup (cmErase c k) n = cmLookup c n
  | .nil, _, _, _ => rfl
  | .cons k2 c2 tl, k, n, h => by
      by_cases hk : (k2 == k) = true
      · have hne : (k2 == n) = false := by
          have heq : k2 = k := by simpa using hk
          subst heq
          simp only [beq_eq_false_iff_ne]
          exact fun he => h he.symm
        simp only [cmErase, hk, if_true, cmLookup, hne]
        simp only [Bool.false_eq_true, if_false]
        exact cmLookup_cmErase tl k n h
      · simp only [cmErase, hk, Bool.false_eq_true, if_false, cmLookup]
        by_cases hn : (k2 == n) = true
        · simp only [hn, if_true]
        · simp only [hn, Bool.false_eq_true, if_false]
          exact cmLookup_cmErase tl k n h

theorem cmErase_size : ∀ (c : ChildMap) (k : String),
    csize ((cmLookup c k).getD .nullc) + cmsize (cmErase c k) ≤ cmsize c
  | .nil, _ => by simp [cmLookup, cmErase, cmsize, csize]
  | .cons k2 c2 tl, k => by
      by_cases hk : (k2 == k) = true
      · have h := cmErase_size tl k
        simp only [cmLookup, cmErase, hk, if_true, Option.getD_some, cmsize]
        omega
      · have h := cmErase_size tl k
        simp only [cmLookup, cmErase, hk, Bool.false_eq_true, if_false, cmsize]
        omega

/-- The key-sum bound: over duplicate-free keys the looked-up child sizes
sum to at most the size of the child map (a JS Map produces exactly such
key arrays). -/
theorem sum_lookup_le (keys : List String) (c : ChildMap) (hnd : keys.Nodup) :
    (keys.map (fun n => csize ((cmLookup c n).getD .nullc))).sum ≤ cmsize c := by
  induction keys generalizing c with
  | nil => simp
  | cons k ks ih =>
    simp only [List.nodup_cons] at hnd
    simp only [List.map_cons, List.sum_cons]
    have hrw : (ks.map (fun n => csize ((cmLookup c n).getD .nullc))).sum
        = (ks.map (fun n => csize ((cmLookup (cmErase c k) n).getD .nullc))).sum := by
      have : ∀ n ∈ ks, csize ((cmLookup c n).getD .nullc)
          = csize ((cmLookup (cmErase c k) n).getD .nullc) := by
        intro n hn
        rw [cmLookup_cmErase c k n (by intro he; exact hnd.1 (he ▸ hn))]
      exact (List.map_congr_left this).symm ▸ rfl
    rw [hrw]
    have h1 := ih (cmErase c k) hnd.2
    have h2 := cmErase_size c k
    omega

theorem dedupKeys_nodup (l : List String) : (dedupKeys l).Nodup := by
  induction l with
  | nil => simp [dedupKeys]
  | cons k tl ih =>
    unfold dedupKeys
    by_cases h : k ∈ dedupKeys tl
    · rw [if_pos h]; exact ih
    · rw [if_neg h]; exact List.nodup_cons.mpr ⟨h, ih⟩

theorem sortStrings_perm (l : List String) : (sortStrings l).Perm l :=
  List.perm_insertionSort _ l

theorem sortStrings_nodup (l : List String) (h : l.Nodup) : (sortStrings l).Nodup :=
  ((sortStrings_perm l).nodup_iff).mpr h

/-- The looked-up sizes over the *sorted* dedup keys are also bounded by
the child-map size (sorting only permutes the sum). -/
theorem sum_lookup_sorted_le (c : ChildMap) :
    ((sortStrings (dedupKeys (cmNames c))).map
      (fun n => csize ((cmLookup c n).getD .nullc))).sum ≤ cmsize c := by
  have hperm : ((sortStrings (dedupKeys (cmNames c))).map
      (fun n => csize ((cmLookup c n).getD .nullc))).Perm
      ((dedupKeys (cmNames c)).map (fun n => csize ((cmLookup c n).getD .nullc))) :=
    (sortStrings_perm (dedupKeys (cmNames c))).map _
  rw [hperm.sum_eq]
  exact sum_lookup_le (dedupKeys (cmNames c)) c (dedupKeys_nodup _)

theorem enqueuePairs_nil (st : CTState) : enqueuePairs st [] = st := by
  cases st
  simp [enqueuePairs]

theorem ctstate_id (st : CTState) :
    { st with
      number := st.number + 0,
      step_count := st.step_count + 0,
      queue := st.queue ++ [] } = st := by
  cases st
  simp

/-- A fully matching field loop leaves the state untouched (no step is
recorded for a matching field and no cut for a non-mismatch). -/
theorem fieldFold_id (o q : Node)
    (hall : ∀ name, sameValue (getField o name) (getField q name) = true) :
    ∀ (ps : List (Nat × String)) (st : CTState),
      ps.foldl
        (fun st p =>
          if sameValue (getField o p.2) (getField q p.2) then st
          else cutState st (valueCutReason p.1 p.2) (.value (getField q p.2)))
        st = st := by
  intro ps
  induction ps with
  | nil => intro st; rfl
  | cons p tl ih =>
    intro st
    simp only [List.foldl_cons, hall p.2, if_true]
    exact ih st

theorem fieldPhase_id (o q : Node) (keys : List String)
    (hall : ∀ name, sameValue (getField o name) (getField q name) = true) (st : CTState) :
    fieldPhase o q keys st = st := by
  unfold fieldPhase
  exact fieldFold_id o q hall keys.enum st

/-- One child-loop iteration on a structurally equal child pair: always a
step plus a (possibly empty) list of structurally equal enqueued pairs,
bounded by the origin child's size. -/
theorem childStep_structEq (o q : Node) (name : String) (st : CTState)
    (h : childEq (getChild o name) (getChild q name) = true) :
    ∃ ps, childStep o q st name = .ok (enqueuePairs (stepState st) ps) ∧
      (∀ p ∈ ps, structEq p.1 p.2 = true) ∧
      pairsSize ps ≤ csize (getChild o name) := by
  cases hoc : getChild o name with
  | node a =>
    cases hqc : getChild q name with
    | node b =>
      rw [hoc, hqc] at h
      refine ⟨[(a, b)], ?_, ?_, ?_⟩
      · simp [childStep, hoc, hqc, isArrChild]
      · intro p hp
        simp only [List.mem_singleton] at hp
        subst hp
        exact h
      · simp [pairsSize, hoc, csize]
    | nullc => rw [hoc, hqc] at h; simp [childEq] at h
    | arr ns => rw [hoc, hqc] at h; simp [childEq] at h
  | nullc =>
    cases hqc : getChild q name with
    | node b => rw [hoc, hqc] at h; simp [childEq] at h
    | nullc =>
      refine ⟨[], ?_, ?_, ?_⟩
      · rw [enqueuePairs_nil]
        simp [childStep, hoc, hqc, isArrChild]
      · intro p hp; simp at hp
      · simp [pairsSize]
    | arr ns => rw [hoc, hqc] at h; simp [childEq] at h
  | arr oa =>
    cases hqc : getChild q name with
    | node b => rw [hoc, hqc] at h; simp [childEq] at h
    | nullc => rw [hoc, hqc] at h; simp [childEq] at h
    | arr qa =>
      rw [hoc, hqc] at h
      simp only [childEq] at h
      refine ⟨zipArr oa qa, ?_, ?_, ?_⟩
      · have hlen : naLength oa = naLength qa := arrEq_length h
        simp [childStep, hoc, hqc, isArrChild, hlen]
      · exact arrEq_zip h
      · rw [arrEq_zip_size h]
        simp [csize]
  
theorem childPhase_structEq (o q : Node) :
    ∀ (keys : List String) (st : CTState),
      (∀ name, childEq (getChild o name) (getChild q name) = true) →
      ∃ k ps, childPhase o q keys st =
          .ok { st with
                number := st.number + k,
                step_count := st.step_count + k,
                queue := st.queue ++ ps } ∧
        (∀ p ∈ ps, structEq p.1 p.2 = true) ∧
        pairsSize ps ≤ (keys.map (fun n => csize (getChild o n))).sum := by
  intro keys
  induction keys with
  | nil =>
    intro st hall
    refine ⟨0, [], ?_, ?_, ?_⟩
    · rw [ctstate_id]
      rfl
    · intro p hp; simp at hp
    · simp [pairsSize]
  | cons key keys ih =>
    intro st hall
    obtain ⟨ps1, hstep, hps1, hsz1⟩ := childStep_structEq o q key st (hall key)
    obtain ⟨k', ps', hrec, hps', hsz'⟩ := ih (enqueuePairs (stepState st) ps1) hall
    refine ⟨k' + 1, ps1 ++ ps', ?_, ?_, ?_⟩
    · unfold childPhase at hrec ⊢
      simp only [List.foldlM_cons, hstep]
      show List.foldlM (childStep o q) (enqueuePairs (stepState st) ps1) keys = _
      rw [hrec]
      obtain ⟨rt, num, sc, cc, cuts, qu⟩ := st
      simp [stepState, enqueuePairs, CTState.mk.injEq, List.append_assoc]
      omega
    · intro p hp
      rcases List.mem_append.mp hp with h1 | h2
      · exact hps1 p h1
      · exact hps' p h2
    · rw [pairsSize_append]
      simp only [List.map_cons, List.sum_cons]
      omega

/-- matchNodes on a structurally equal pair: no assert fires, no cut is
recorded, at least one step is (the `node_type` step), and the enqueued
pairs are structurally equal children of the pair, of total origin size
strictly below the origin's size. -/
theorem matchNodes_structEq (o q : Node) (st : CTState) (h : structEq o q = true) :
    ∃ k ps, matchNodes o q st =
        .ok { st with
              number := st.number + k,
              step_count := st.step_count + k,
              queue := st.queue ++ ps } ∧
      1 ≤ k ∧ (∀ p ∈ ps, structEq p.1 p.2 = true) ∧ pairsSize ps < nsize o := by
  obtain ⟨n1, t1, f1, c1⟩ := o
  obtain ⟨n2, t2, f2, c2⟩ := q
  simp only [structEq, Bool.and_eq_true, beq_iff_eq] at h
  obtain ⟨⟨ht, hf⟩, hc⟩ := h
  subst ht
  have hkf : sortedFieldKeys (Node.mk n1 t1 f1 c1) = sortedFieldKeys (Node.mk n2 t1 f2 c2) := by
    unfold sortedFieldKeys
    simp only [Node.fields]
    rw [fieldsEq_names hf]
  have hkc : sortedChildKeys (Node.mk n1 t1 f1 c1) = sortedChildKeys (Node.mk n2 t1 f2 c2) := by
    unfold sortedChildKeys
    simp only [Node.children]
    rw [childMapEq_names hc]
  have hallf : ∀ name, sameValue (getField (Node.mk n1 t1 f1 c1) name)
      (getField (Node.mk n2 t1 f2 c2) name) = true := by
    intro name
    simp only [getField, Node.fields]
    exact fieldsEq_lookup hf name
  have hallc : ∀ name, childEq (getChild (Node.mk n1 t1 f1 c1) name)
      (getChild (Node.mk n2 t1 f2 c2) name) = true := by
    intro name
    simp only [getChild, Node.children]
    exact childMapEq_lookup hc name
  obtain ⟨k', ps, heq, hps, hsz⟩ :=
    childPhase_structEq (Node.mk n1 t1 f1 c1) (Node.mk n2 t1 f2 c2)
      (sortedChildKeys (Node.mk n1 t1 f1 c1)) (stepState (stepState st)) hallc
  refine ⟨k' + 2, ps, ?_, by omega, hps, ?_⟩
  · unfold matchNodes
    rw [if_neg (by simp [Node.typeName])]
    rw [if_neg (by rw [hkf]; simp [arraysEqualSimple])]
    rw [fieldPhase_id _ _ _ hallf]
    rw [if_neg (by rw [hkc]; simp [arraysEqualSimple])]
    rw [heq]
    obtain ⟨rt, num, sc, cc, cuts, qu⟩ := st
    simp [stepState, CTState.mk.injEq]
    omega
  · have hb : (List.map (fun n => csize (getChild (Node.mk n1 t1 f1 c1) n))
        (sortedChildKeys (Node.mk n1 t1 f1 c1))).sum ≤ cmsize c1 := by
      simp only [getChild, Node.children, sortedChildKeys]
      exact sum_lookup_sorted_le c1
    have : nsize (Node.mk n1 t1 f1 c1) = 1 + cmsize c1 := rfl
    omega

theorem nsize_pos (n : Node) : 1 ≤ nsize n := by
  cases n
  simp [nsize]

/-- The breadth-first loop on a queue of structurally equal pairs (with
fuel at least the queue measure): it terminates with a template carrying
the untouched cut accumulators, a step count that grew by at least the
number of queued pairs, and the constructor benefit. -/
theorem computeLoop_structEq : ∀ (fuel : Nat) (st : CTState),
    (∀ p ∈ st.queue, structEq p.1 p.2 = true) → pairsSize st.queue ≤ fuel →
    ∃ tm, computeLoop fuel st = .ok tm ∧ tm.tree = st.root ∧
      tm.cut_count = st.cut_count ∧ tm.cuts = st.cuts ∧
      st.step_count + st.queue.length ≤ tm.step_count ∧
      tm.benefit = (tm.step_count : Int) - 1 := by
  intro fuel
  induction fuel with
  | zero =>
    intro st hq hsz
    obtain ⟨rt, num, sc, cc, cuts, qu⟩ := st
    cases qu with
    | cons p rest =>
      exfalso
      have h1 := nsize_pos p.1
      simp only [pairsSize, List.map_cons, List.sum_cons] at hsz
      omega
    | nil =>
      refine ⟨mkTemplate ⟨rt, num, sc, cc, cuts, []⟩, rfl, rfl, rfl, rfl, by simp [mkTemplate], rfl⟩
  | succ fuel ih =>
    intro st hq hsz
    obtain ⟨rt, num, sc, cc, cuts, qu⟩ := st
    cases qu with
    | nil =>
      refine ⟨mkTemplate ⟨rt, num, sc, cc, cuts, []⟩, rfl, rfl, rfl, rfl, by simp [mkTemplate], rfl⟩
    | cons p rest =>
      obtain ⟨o, q⟩ := p
      have hsz2 : pairsSize ((o, q) :: rest) ≤ fuel + 1 := hsz
      have hpair : structEq o q = true := hq (o, q) (by simp)
      obtain ⟨k, ps, hmn, hk, hps, hszps⟩ :=
        matchNodes_structEq o q ⟨rt, num, sc, cc, cuts, rest⟩ hpair
      have hqsz : pairsSize ((o, q) :: rest) = nsize o + pairsSize rest := by
        simp [pairsSize]
      obtain ⟨tm, hloop, htree, hcc, hcuts, hstep, hben⟩ :=
        ih ⟨rt, num + k, sc + k, cc, cuts, rest ++ ps⟩
          (by
            intro pr hpr
            rcases List.mem_append.mp hpr with h1 | h2
            · exact hq pr (by simp [h1])
            · exact hps pr h2)
          (by
            rw [pairsSize_append]
            rw [hqsz] at hsz2
            omega)
      refine ⟨tm, ?_, htree, hcc, hcuts, ?_, hben⟩
      · show computeLoop (fuel + 1) ⟨rt, num, sc, cc, cuts, (o, q) :: rest⟩ = .ok tm
        unfold computeLoop
        simp only [hmn]
        show computeLoop fuel ⟨rt, num + k, sc + k, cc, cuts, rest ++ ps⟩ = .ok tm
        exact hloop
      · simp only [List.length_cons]
        simp only [List.length_append] at hstep
        omega

/- ===================================================================
   Part 10: claim theorems
   =================================================================== -/

/-- C1: the claim states that writeVarUint emits the LEB128 encoding of
every `v` in `[0, 2^32 - 1]` and that decoding recovers `v`.  The code
is a correct LEB128 encoder only below `2^31`: at `v = 2^31` the JS
signed 32-bit `>>=` and `&` turn the value negative, the loop exits
after one iteration, and the emitted bytes `80 00` decode to 0, not
`2^31`.  This theorem evaluates the embedded encoder at the failing
input. -/
theorem writeVarUint_breaks_at_2_31 :
    writeVarUint 2147483648 = .ok [128, 0] ∧
    lebDecode [128, 0] = some 0 ∧
    (0 : Nat) ≠ 2147483648 := by
  refine ⟨rfl, rfl, by omega⟩

theorem toUint32_of_small (v : Int) (h0 : 0 ≤ v) (h1 : v < 4294967296) :
    toUint32 v = v.toNat := by
  unfold toUint32
  rw [Int.emod_eq_of_lt h0 (by omega)]

/-- C2: the claim states that `writeValue` on a table string emits a
first byte in `0x14..0x17` (`STR_TAG` ORed with the size bits).  The
source's `writeTaggedNum` ignores its `tag` argument and always emits
`INT_TAG` (0x10) — contradicting the format table in the header comment
of encoder.js (`Str 0001-01SS`).  For any finished table, a string with
a one-byte id is emitted with header `INT_TAG`, strictly below the
claimed `0x14..0x17` range. -/
theorem writeValue_string_uses_INT_TAG (st : StringTable) (s : String) (i : Nat)
    (hl : st.lookup s = .ok i) (hsmall : i ≤ 255) :
    writeValue st (.vstr s) = .ok [INT_TAG, i] ∧ INT_TAG < STR_TAG := by
  refine ⟨?_, by decide⟩
  have hs : writeValue st (.vstr s) = (st.lookup s >>= fun id => writeTaggedNum STR_TAG (id : Int)) := rfl
  rw [hs, hl]
  show writeTaggedNum STR_TAG (i : Int) = .ok [INT_TAG, i]
  unfold writeTaggedNum
  rw [if_neg (by omega), if_neg (by omega)]
  have huv : toUint32 (i : Int) = i := by
    rw [toUint32_of_small (i : Int) (by omega) (by omega)]
    simp
  simp only [huv]
  rw [if_pos hsmall]
  have hb : jsByte (i : Int) = i := by
    rw [jsByte_of_small i (by omega)]
    omega
  rw [hb]
  rfl

theorem writeValue_string_uses_INT_TAG_witness :
    writeValue fxTable (.vstr "a") = .ok [INT_TAG, 0] ∧ INT_TAG < STR_TAG :=
  writeValue_string_uses_INT_TAG fxTable "a" 0 rfl (by omega)

/-- C3 (counterexample): the claim as stated runs `compute_template(t, t)`
on one and the same subtree; the `ComputeTemplate` constructor *asserts*
that origin and query are distinct references, so the computation aborts
instead of succeeding. -/
theorem computeTemplate_same_ref_asserts :
    computeTemplate fxIdent0 fxIdent0 = .error "assert failed: NODE ALREADY IN" := rfl

/-- C3 (amended): for any two *distinct* structurally identical subtrees
`t`, `t'`, compute_template succeeds with `cut_count = 0`, no cuts, at
least one step, and `benefit = step_count - 1`. -/
theorem computeTemplate_structEq (t t' : Node) (hnum : t.num ≠ t'.num)
    (h : structEq t t' = true) :
    ∃ tm, computeTemplate t t' = .ok tm ∧ tm.cut_count = 0 ∧ tm.cuts = [] ∧
      1 ≤ tm.step_count ∧ tm.benefit = (tm.step_count : Int) - 1 := by
  unfold computeTemplate
  rw [if_neg (by simp [hnum])]
  obtain ⟨tm, hloop, _, hcc, hcuts, hstep, hben⟩ :=
    computeLoop_structEq (nsize t) ⟨t, 0, 0, 0, [], [(t, t')]⟩
      (by
        intro p hp
        simp only [List.mem_singleton] at hp
        subst hp
        exact h)
      (by simp [pairsSize])
  exact ⟨tm, hloop, hcc, hcuts, by simpa using hstep, hben⟩

theorem computeTemplate_structEq_witness :
    ∃ tm, computeTemplate fxIdent0 fxIdent1 = .ok tm ∧ tm.cut_count = 0 ∧ tm.cuts = [] ∧
      1 ≤ tm.step_count ∧ tm.benefit = (tm.step_count : Int) - 1 :=
  computeTemplate_structEq fxIdent0 fxIdent1 (by decide) rfl

/-- C7: the claim states that writeDirectNode emits the raw-ident type
code 2 plus the character byte for single-character identifiers.  The
source has no such path at all: its very first action calls
`node.type.typeCode()`, a method that no NodeType defines, so the call
throws for every node (and the expected bytes `02 78` are never
produced). -/
theorem writeDirectNode_always_throws (st : StringTable) (n : Node) :
    writeDirectNode st n = .error "TypeError: node.type.typeCode is not a function" := rfl

/-- C10: the ComputeTemplate constructor demands distinct origin and
query references: a reference-identical pair aborts via the assert
(never returning a template), and any distinct pair proceeds into the
breadth-first comparison loop. -/
theorem computeTemplate_requires_distinct (o q : Node) :
    (o.num = q.num → ∀ tm, computeTemplate o q ≠ .ok tm) ∧
    (o.num ≠ q.num → computeTemplate o q =
      computeLoop (nsize o) ⟨o, 0, 0, 0, [], [(o, q)]⟩) := by
  constructor
  · intro h tm hcon
    unfold computeTemplate at hcon
    rw [if_pos (by simp [h])] at hcon
    exact Except.noConfusion hcon
  · intro h
    unfold computeTemplate
    rw [if_neg (by simp [h])]

theorem computeTemplate_requires_distinct_witness :
    (∀ tm, computeTemplate fxIdent0 fxIdent0 ≠ .ok tm) ∧
    computeTemplate fxIdent0 fxIdent1 =
      computeLoop (nsize fxIdent0) ⟨fxIdent0, 0, 0, 0, [], [(fxIdent0, fxIdent1)]⟩ :=
  ⟨(computeTemplate_requires_distinct fxIdent0 fxIdent0).1 rfl,
   (computeTemplate_requires_distinct fxIdent0 fxIdent1).2 (by decide)⟩

/- ===================================================================
   Part 11: C5 — ring-buffer behavior of cachePush
   =================================================================== -/

theorem shiftLoop_of_lt {α : Type} (w : Nat) (l : List α) (h : l.length < w) :
    shiftLoop w l = l := by
  cases l with
  | nil => rfl
  | cons x tl =>
    unfold shiftLoop
    rw [if_neg (by omega)]

/-- With at most 64 elements, the shift loop drops exactly the overflow
beyond 63 elements. -/
theorem shiftLoop_64 {α : Type} (l : List α) (h : l.length ≤ 64) :
    shiftLoop 64 l = l.drop (l.length - 63) := by
  cases l with
  | nil => rfl
  | cons x tl =>
    by_cases h64 : (x :: tl).length = 64
    · unfold shiftLoop
      rw [if_pos (by omega)]
      rw [shiftLoop_of_lt 64 tl (by simp at h64; omega)]
      have hidx : (x :: tl).length - 63 = 1 := by omega
      rw [hidx, List.drop_one, List.tail_cons]
    · unfold shiftLoop
      rw [if_neg (by omega)]
      have hidx : (x :: tl).length - 63 = 0 := by simp at h64 h ⊢; omega
      rw [hidx, List.drop_zero]

theorem cachePush_64 {α : Type} (cache : List α) (x : α) (h : cache.length ≤ 63) :
    cachePush 64 cache x = (cache ++ [x]).drop (cache.length + 1 - 63) := by
  unfold cachePush
  rw [shiftLoop_64 _ (by simp; omega)]
  congr 1
  simp

theorem cachePush_64_length {α : Type} (cache : List α) (x : α) (h : cache.length ≤ 63) :
    (cachePush 64 cache x).length ≤ 63 := by
  rw [cachePush_64 cache x h]
  rw [List.length_drop, List.length_append, List.length_singleton]
  omega

/-- Folding cachePush over a push sequence keeps exactly the newest
buffer-capacity-many entries (the appended sequence with the overflow
dropped from the head). -/
theorem foldl_cachePush_64 {α : Type} :
    ∀ (xs acc : List α), acc.length ≤ 63 →
      List.foldl (cachePush 64) acc xs = (acc ++ xs).drop (acc.length + xs.length - 63) := by
  intro xs
  induction xs with
  | nil =>
    intro acc h
    simp only [List.foldl_nil, List.append_nil, List.length_nil, Nat.add_zero]
    have h0 : acc.length - 63 = 0 := by omega
    rw [h0, List.drop_zero]
  | cons x xs ih =>
    intro acc h
    simp only [List.foldl_cons]
    rw [ih (cachePush 64 acc x) (cachePush_64_length acc x h)]
    rw [cachePush_64 acc x h]
    by_cases hc : acc.length ≤ 62
    · have h0 : acc.length + 1 - 63 = 0 := by omega
      rw [h0, List.drop_zero]
      have hlen : (acc ++ [x]).length = acc.length + 1 := by simp
      rw [hlen, List.append_assoc]
      have hln : (acc.length + 1) + xs.length - 63 = acc.length + (xs.length + 1) - 63 := by
        omega
      rw [hln]
      rfl
    · have h63 : acc.length = 63 := by omega
      have h1 : acc.length + 1 - 63 = 1 := by omega
      rw [h1]
      have hlen : ((acc ++ [x]).drop 1).length = 63 := by
        rw [List.length_drop, List.length_append, List.length_singleton]
        omega
      rw [hlen]
      calc ((acc ++ [x]).drop 1 ++ xs).drop (63 + xs.length - 63)
          = ((acc ++ [x]).drop 1 ++ xs).drop xs.length := by
            congr 1
            omega
        _ = (((acc ++ [x]) ++ xs).drop 1).drop xs.length := by
            conv_rhs => rw [List.drop_append_of_le_length (by simp)]
        _ = ((acc ++ [x]) ++ xs).drop (xs.length + 1) := by
            rw [List.drop_drop]
            congr 1
            omega
        _ = (acc ++ x :: xs).drop (acc.length + (xs.length + 1) - 63) := by
            rw [List.append_assoc]
            have hix : xs.length + 1 = acc.length + (xs.length + 1) - 63 := by omega
            rw [← hix]
            rfl

theorem getD_set_self {α : Type} (l : List α) (i : Nat) (a d : α) (h : i < l.length) :
    (l.set i a).getD i d = a := by
  induction l generalizing i with
  | nil => simp at h
  | cons x tl ih =>
    cases i with
    | zero => rfl
    | succ i =>
      simp only [List.set_cons_succ, List.getD_cons_succ]
      exact ih i (by simpa using h)

theorem getD_append_left {α : Type} (l l2 : List α) (i : Nat) (d : α) (h : i < l.length) :
    (l ++ l2).getD i d = l.getD i d := by
  induction l generalizing i with
  | nil => simp at h
  | cons x tl ih =>
    cases i with
    | zero => rfl
    | succ i =>
      simp only [List.cons_append, List.getD_cons_succ]
      exact ih i (by simpa using h)

theorem getD_replicate_self {α : Type} (n i : Nat) (d : α) :
    (List.replicate n d).getD i d = d := by
  induction n generalizing i with
  | zero => simp [List.getD]
  | succ n ih =>
    cases i with
    | zero => rfl
    | succ i =>
      simp only [List.replicate_succ, List.getD_cons_succ]
      exact ih i

theorem getD_append_replicate {α : Type} (l : List α) (k i : Nat) (d : α) :
    (l ++ List.replicate k d).getD i d = l.getD i d := by
  induction l generalizing i with
  | nil =>
    simp only [List.nil_append]
    rw [getD_replicate_self]
    simp [List.getD]
  | cons x tl ih =>
    cases i with
    | zero => rfl
    | succ i =>
      simp only [List.cons_append, List.getD_cons_succ]
      exact ih i

theorem depth_lt_extendCaches (l : List DCEntry) (depth : Nat) :
    depth < (extendCaches l depth).length := by
  unfold extendCaches
  rw [List.length_append, List.length_replicate]
  omega

theorem getD_extendCaches (l : List DCEntry) (depth i : Nat) :
    (extendCaches l depth).getD i ⟨[], []⟩ = l.getD i ⟨[], []⟩ := by
  unfold extendCaches
  exact getD_append_replicate l _ i ⟨[], []⟩

theorem treesAt_pushTree (dc : DepthCache) (depth : Nat) (n : Node) :
    treesAt (dc.pushTree depth n) depth = cachePush dc.width (treesAt dc depth) n := by
  unfold DepthCache.pushTree treesAt
  simp only []
  rw [getD_set_self _ _ _ _ (depth_lt_extendCaches dc.depth_caches depth)]
  rw [getD_extendCaches]

theorem templatesAt_pushTemplate (dc : DepthCache) (depth : Nat) (tm : Template) :
    templatesAt (dc.pushTemplate depth tm) depth
      = cachePush dc.width (templatesAt dc depth) tm := by
  unfold DepthCache.pushTemplate templatesAt
  simp only []
  rw [getD_set_self _ _ _ _ (depth_lt_extendCaches dc.depth_caches depth)]
  rw [getD_extendCaches]

theorem foldl_pushTree (depth : Nat) :
    ∀ (xs : List Node) (dc : DepthCache), dc.width = 64 →
      treesAt (List.foldl (fun dc n => DepthCache.pushTree dc depth n) dc xs) depth
        = List.foldl (cachePush 64) (treesAt dc depth) xs := by
  intro xs
  induction xs with
  | nil => intro dc hw; rfl
  | cons x xs ih =>
    intro dc hw
    simp only [List.foldl_cons]
    rw [ih (dc.pushTree depth x) hw]
    rw [treesAt_pushTree, hw]

theorem foldl_pushTemplate (depth : Nat) :
    ∀ (xs : List Template) (dc : DepthCache), dc.width = 64 →
      templatesAt (List.foldl (fun dc t => DepthCache.pushTemplate dc depth t) dc xs) depth
        = List.foldl (cachePush 64) (templatesAt dc depth) xs := by
  intro xs
  induction xs with
  | nil => intro dc hw; rfl
  | cons x xs ih =>
    intro dc hw
    simp only [List.foldl_cons]
    rw [ih (dc.pushTemplate depth x) hw]
    rw [templatesAt_pushTemplate, hw]

/-- C5 (amended): after n pushes at a fixed depth, the tree (respectively
template) ring at that depth holds exactly the `min(n, 63)` most recent
entries in push order: `cachePush` appends at the tail and drops heads
while the post-push length is still `>= WIDTH = 64`, so the buffer never
retains more than `WIDTH - 1 = 63` entries. -/
theorem pushes_keep_newest_63 (depth : Nat) (xs : List Node) (ts : List Template) :
    treesAt (List.foldl (fun dc n => DepthCache.pushTree dc depth n) DepthCache.init xs) depth
      = xs.drop (xs.length - 63) ∧
    templatesAt (List.foldl (fun dc t => DepthCache.pushTemplate dc depth t)
      DepthCache.init ts) depth = ts.drop (ts.length - 63) := by
  constructor
  · rw [foldl_pushTree depth xs DepthCache.init rfl]
    have h0 : treesAt DepthCache.init depth = [] := by
      unfold treesAt DepthCache.init
      simp [List.getD]
    rw [h0, foldl_cachePush_64 xs [] (by simp)]
    simp
  · rw [foldl_pushTemplate depth ts DepthCache.init rfl]
    have h0 : templatesAt DepthCache.init depth = [] := by
      unfold templatesAt DepthCache.init
      simp [List.getD]
    rw [h0, foldl_cachePush_64 ts [] (by simp)]
    simp

/-- C5 (counterexample): after 64 pushes of distinct trees at one depth
the ring holds only 63 entries (the oldest is gone), not the
`min(64, 64) = 64` the claim asserts. -/
theorem sixty_four_pushes_keep_63 :
    (treesAt (List.foldl (fun dc n => DepthCache.pushTree dc 0 n) DepthCache.init fxNodes64)
      0).length = 63 ∧
    treesAt (List.foldl (fun dc n => DepthCache.pushTree dc 0 n) DepthCache.init fxNodes64) 0
      = fxNodes64.drop 1 := by
  have h : treesAt (List.foldl (fun dc n => DepthCache.pushTree dc 0 n)
      DepthCache.init fxNodes64) 0 = fxNodes64.drop (fxNodes64.length - 63) := by
    rw [foldl_pushTree 0 fxNodes64 DepthCache.init rfl]
    have h0 : treesAt DepthCache.init 0 = [] := by
      unfold treesAt DepthCache.init
      simp [List.getD]
    rw [h0, foldl_cachePush_64 fxNodes64 [] (by simp)]
    simp
  have hlen : fxNodes64.length = 64 := by
    unfold fxNodes64
    simp
  rw [hlen] at h
  constructor
  · rw [h]
    rw [List.length_drop, hlen]
  · exact h

/- ===================================================================
   Part 12: C8 / C9 — walker behavior
   =================================================================== -/

/-- C8 (amended): when the begin callback returns `false` for a node the
walker emits no events for that node's children and no end event for it
— but it does not resume elsewhere: the helper returns immediately after
the begin event with the abort flag set, which every enclosing
activation propagates, ending the entire traversal. -/
theorem walkHelper_prune_aborts (fuel : Nat) (cb : Cb) (node : Node) (attrs : WAttrs) (c : Nat)
    (h : cb .wbegin (some node) attrs = .rFalse) :
    walkHelper (fuel + 1) cb node attrs c = ([⟨.wbegin, some node.num, attrs⟩], true, c) := by
  unfold walkHelper
  rw [h]

theorem walkHelper_prune_aborts_witness :
    walkHelper 10 fxPruneCb (.mk 1 "EmptyStatement" [] .nil)
      ⟨some 0, "body", "body.0", 1, 1⟩ 1
      = ([⟨.wbegin, some 1, ⟨some 0, "body", "body.0", 1, 1⟩⟩], true, 1) :=
  walkHelper_prune_aborts 9 fxPruneCb (.mk 1 "EmptyStatement" [] .nil)
    ⟨some 0, "body", "body.0", 1, 1⟩ 1 rfl

/-- C8 (counterexample): pruning the first of two siblings kills the
whole walk: the trace is exactly `begin(root), begin(sibling 1)` — the
second sibling is never visited and the root's end event is never
emitted, contrary to the claim that only the pruned subtree is
skipped. -/
theorem pruned_walk_aborts_whole_traversal :
    (prePostWalk 10 fxWalkRoot fxPruneCb).1.map (fun e => (e.kind, e.node))
      = [(.wbegin, some 0), (.wbegin, some 1)] ∧
    (prePostWalk 10 fxWalkRoot fxPruneCb).2.1 = true := ⟨rfl, rfl⟩

/-- C9: natural traversal of a FunctionDeclaration whose `params` array
is empty.  The claim says every branch is visited (an empty_array event
for the empty branch) and exactly one end event follows.  The code
instead executes a bare `return;` right after the empty_array callback:
the `body` branch (node 2) is never visited and the node's own end event
is never emitted — the trace stops at the empty_array event (no abort is
signalled, so this is silent).  This contradicts the loop's own "Walk
each of the children" comment and starves the driver of the `end` pushes
it relies on. -/
theorem empty_array_branch_skips_rest :
    (prePostWalk 10 fxFuncDecl fxNaturalCb).1.map (fun e => (e.kind, e.node, e.attrs.name))
      = [(.wbegin, some 0, "<root>"), (.wbegin, some 1, "id"), (.wend, some 1, "id"),
         (.wemptyArray, none, "params")] ∧
    (prePostWalk 10 fxFuncDecl fxNaturalCb).2.1 = false := ⟨rfl, rfl⟩

/- ===================================================================
   Part 13: C4 — the search combine policy
   =================================================================== -/

theorem except_bind_ok {α β : Type} {x : Except String α} {f : α → Except String β} {b : β}
    (h : (x >>= f) = .ok b) : ∃ a, x = .ok a ∧ f a = .ok b := by
  cases x with
  | error e =>
    rw [show ((Except.error e : Except String α) >>= f) = Except.error e from rfl] at h
    exact Except.noConfusion h
  | ok a =>
    rw [show ((Except.ok a : Except String α) >>= f) = f a from rfl] at h
    exact ⟨a, rfl, h⟩

theorem bestMatch_pos (ms : List SMatch) (m : SMatch) (h : bestMatch ms = some m) :
    0 < m.benefit := by
  unfold bestMatch at h
  cases hs : List.insertionSort (fun a b : SMatch => b.benefit ≤ a.benefit) ms with
  | nil =>
    rw [hs] at h
    exact Option.noConfusion h
  | cons x tl =>
    rw [hs] at h
    have h2 : (if 0 < x.benefit then some x else none) = some m := h
    by_cases hb : 0 < x.benefit
    · rw [if_pos hb] at h2
      cases h2
      exact hb
    · rw [if_neg hb] at h2
      exact Option.noConfusion h2

theorem templateSearch_pos (dc : DepthCache) (depth : Nat) (q : Node) (m : SMatch)
    (h : templateSearch dc depth q = .ok (some m)) : 0 < m.benefit := by
  unfold templateSearch at h
  obtain ⟨ms, hms, hok⟩ := except_bind_ok h
  have hbm : bestMatch ms = some m := by
    rw [show (pure (bestMatch ms) : Except String (Option SMatch)) = .ok (bestMatch ms) from rfl]
      at hok
    exact Except.ok.inj hok
  exact bestMatch_pos ms m hbm

theorem treeSearch_pos (dc : DepthCache) (depth : Nat) (q : Node) (m : SMatch)
    (h : treeSearch dc depth q = .ok (some m)) : 0 < m.benefit := by
  unfold treeSearch at h
  obtain ⟨ms0, hms0, h1⟩ := except_bind_ok h
  obtain ⟨ms1, hms1, h2⟩ := except_bind_ok h1
  obtain ⟨ms2, hms2, h3⟩ := except_bind_ok h2
  have hbm : bestMatch ms2 = some m := by
    rw [show (pure (bestMatch ms2) : Except String (Option SMatch)) = .ok (bestMatch ms2) from rfl]
      at h3
    exact Except.ok.inj h3
  exact bestMatch_pos ms2 m hbm

/-- C4: the depth-cache search returns a match only when it has strictly
positive benefit, and when both sub-searches produced (positive) matches
the returned one is the higher-benefit candidate, the template candidate
winning ties. -/
theorem search_combines_best (dc : DepthCache) (depth : Nat) (q : Node) :
    (∀ m, DepthCache.search dc depth q = .ok (some m) → 0 < m.benefit) ∧
    (∀ a b, templateSearch dc depth q = .ok (some a) → treeSearch dc depth q = .ok (some b) →
      DepthCache.search dc depth q = .ok (some (if b.benefit ≤ a.benefit then a else b))) := by
  constructor
  · intro m h
    unfold DepthCache.search at h
    obtain ⟨t, ht, h1⟩ := except_bind_ok h
    obtain ⟨r, hr, h2⟩ := except_bind_ok h1
    cases t with
    | none =>
      cases r with
      | none =>
        rw [show ((match (none : Option SMatch), (none : Option SMatch) with
          | some a, some b => pure (some (if b.benefit ≤ a.benefit then a else b))
          | some a, none => pure (some a)
          | none, some b => pure (some b)
          | none, none => pure none) : Except String (Option SMatch)) = .ok none from rfl] at h2
        exact Option.noConfusion (Except.ok.inj h2)
      | some b =>
        have hm : m = b := by
          have := Except.ok.inj h2
          exact (Option.some.inj this).symm
        rw [hm]
        exact treeSearch_pos dc depth q b hr
    | some a =>
      cases r with
      | none =>
        have hm : m = a := by
          have := Except.ok.inj h2
          exact (Option.some.inj this).symm
        rw [hm]
        exact templateSearch_pos dc depth q a ht
      | some b =>
        have hm : m = if b.benefit ≤ a.benefit then a else b := by
          have := Except.ok.inj h2
          exact (Option.some.inj this).symm
        rw [hm]
        by_cases hc : b.benefit ≤ a.benefit
        · rw [if_pos hc]
          exact templateSearch_pos dc depth q a ht
        · rw [if_neg hc]
          exact treeSearch_pos dc depth q b hr
  · intro a b ht hr
    unfold DepthCache.search
    rw [ht]
    rw [show ((Except.ok (some a) : Except String (Option SMatch)) >>= fun t =>
      treeSearch dc depth q >>= fun r =>
      (match t, r with
        | some a, some b => pure (some (if b.benefit ≤ a.benefit then a else b))
        | some a, none => pure (some a)
        | none, some b => pure (some b)
        | none, none => pure none)) = (treeSearch dc depth q >>= fun r =>
      (match some a, r with
        | some a, some b => pure (some (if b.benefit ≤ a.benefit then a else b))
        | some a, none => pure (some a)
        | none, some b => pure (some b)
        | none, none => pure none)) from rfl]
    rw [hr]
    rfl

theorem search_combines_best_witness :
    DepthCache.search fxCache 0 fxFoo5 = .ok (some fxMatch) :=
  ((search_combines_best fxCache 0 fxFoo5).2 fxMatch fxMatch rfl rfl).trans (by rfl)

/- ===================================================================
   Part 14: C6 — the field loop does not short-circuit
   =================================================================== -/

theorem fieldFold_spec (o q : Node) : ∀ (ps : List (Nat × String)) (st : CTState),
    ps.foldl
      (fun st p =>
        if sameValue (getField o p.2) (getField q p.2) then st
        else cutState st (valueCutReason p.1 p.2) (.value (getField q p.2)))
      st =
    { st with
      number := st.number
        + (ps.filter (fun p => !(sameValue (getField o p.2) (getField q p.2)))).length,
      cut_count := st.cut_count
        + (ps.filter (fun p => !(sameValue (getField o p.2) (getField q p.2)))).length,
      cuts := st.cuts ++ buildValueCuts q st.number
        (ps.filter (fun p => !(sameValue (getField o p.2) (getField q p.2)))) } := by
  intro ps
  induction ps with
  | nil =>
    intro st
    cases st
    simp [buildValueCuts]
  | cons p tl ih =>
    intro st
    simp only [List.foldl_cons, List.filter_cons]
    cases hs : sameValue (getField o p.2) (getField q p.2) with
    | true =>
      simp only [hs, if_true, Bool.not_true, Bool.false_eq_true, if_false]
      exact ih st
    | false =>
      simp only [hs, Bool.false_eq_true, if_false, Bool.not_false, if_true]
      rw [ih (cutState st (valueCutReason p.1 p.2) (.value (getField q p.2)))]
      obtain ⟨rt, num, sc, cc, cuts, qu⟩ := st
      simp [cutState, buildValueCuts, CTState.mk.injEq, List.append_assoc]
      all_goals omega

theorem fieldPhase_spec (o q : Node) (keys : List String) (st : CTState) :
    fieldPhase o q keys st =
      { st with
        number := st.number + (mismatchedFields o q keys).length,
        cut_count := st.cut_count + (mismatchedFields o q keys).length,
        cuts := st.cuts ++ buildValueCuts q st.number (mismatchedFields o q keys) } := by
  unfold fieldPhase mismatchedFields
  exact fieldFold_spec o q keys.enum st

/-- C6: when origin and query agree on type and sorted field-name set,
the per-field loop walks *every* sorted field key: each mismatching
field contributes exactly one cut (consecutive positions, the
`value i:name` reason, the query value as substitution) and no mismatch
ends the node comparison — afterwards control always reaches the
child-branch comparison (the child-name check, and the child loop when
the names agree).  The `return` in the source is a `forEach` callback
return, i.e. a continue. -/
theorem matchNodes_no_field_shortcircuit (o q : Node) (st : CTState)
    (htype : o.typeName = q.typeName)
    (hkeys : sortedFieldKeys o = sortedFieldKeys q) :
    matchNodes o q st =
      (if !arraysEqualSimple (sortedChildKeys o) (sortedChildKeys q) then
        .ok (cutState (c6State o q st) "child_names" (.node (some q)))
      else
        childPhase o q (sortedChildKeys o) (stepState (c6State o q st))) := by
  unfold matchNodes
  rw [if_neg (by simp [htype])]
  rw [if_neg (by rw [hkeys]; simp [arraysEqualSimple])]
  have hfp : fieldPhase o q (sortedFieldKeys o) (stepState st) = c6State o q st := by
    rw [fieldPhase_spec]
    rfl
  rw [hfp]

theorem matchNodes_no_field_shortcircuit_witness :
    matchNodes fxUpd0 fxUpd2 fxStart =
      .ok ⟨fxUpd0, 5, 3, 2,
        [⟨1, "value 0:operator", .value (.vstr "--")⟩,
         ⟨2, "value 1:prefix", .value (.vbool false)⟩],
        [(.mk 1 "Identifier" [("name", .vstr "i")] .nil,
          .mk 3 "Identifier" [("name", .vstr "j")] .nil)]⟩ :=
  (matchNodes_no_field_shortcircuit fxUpd0 fxUpd2 fxStart rfl rfl).trans (by rfl)
